import Mathlib

/-!
Verification of the memory-isolation and syscall-bridge layer of
`substrate-seal-ebpf` (src/client/executor/common/src/ebpf.rs).

The layer wires a guest eBPF program to a single writable input region and a
fixed registry of host services: `abort`, `ext_syscall`, and the four built-in
memory services `sol_memcpy_`, `sol_memmove_`, `sol_memset_`, `sol_memcmp_`.
Guest memory access goes through `MemoryRef`, a bounds-checked accessor over
the engine's `MemoryMapping`.

Shallow embedding choices:
* Guest memory is the one writable region `execute` constructs
  (`MemoryRegion::new_writable(input, ebpf::MM_INPUT_START)`): a guest base
  address and a list of bytes, each byte a `Nat` below 256.
* `u64` arguments become `Nat` (no arithmetic in the source can overflow a
  `u64` in a way the services observe; `n as usize` is the identity on the
  64-bit targets the crate builds for).  The single `u8` truncation in the
  source, `c as u8` in `sol_memset_syscall`, is `% 256`.
* The fallible accessor operations return `Option`: `None` models the
  `.unwrap()` panic on a failed `MemoryMapping::map`, which aborts the run.
* The engine's per-syscall result slot `ProgramResult` (a `StableResult` of a
  `u64` or an `EbpfError`) becomes `SyscallOutcome`, which also carries the
  final region so that mutation can be observed.
-/

namespace SealEbpf

/-- The one guest-visible memory region of a run: `execute` maps the caller's
input buffer writable at the engine-defined base `ebpf::MM_INPUT_START`.
`base` is its guest address and `data` its bytes. -/
structure Region where
  base : Nat
  data : List Nat
  deriving DecidableEq

/-- `ebpf::MM_INPUT_START` of the engine: the fixed guest base address at
which `execute` maps the input buffer. -/
def MM_INPUT_START : Nat := 0x400000000

/-- Modelled from the spec: `MemoryMapping::map` belongs to the external
bytecode engine (solana_rbpf), which is out of scope and absent from the
sources; spec section 4.1 gives its contract: given a guest offset, a length
and an access mode, produce a host range of exactly that length, or fail if
the requested range is not fully covered by a region with the matching
permission.  The single region here is writable (hence also readable), so the
access mode cannot make a difference; an empty requested range is vacuously
fully covered. -/
def Region.mapOk (r : Region) (offset len : Nat) : Bool :=
  len == 0 || (decide (r.base ≤ offset) && decide (offset + len ≤ r.base + r.data.length))

/-- Bytes `[i, i+len)` of a byte list (host-side slice read). -/
def listRead (data : List Nat) (i len : Nat) : List Nat :=
  (data.drop i).take len

/-- Overwrite bytes `[i, i+buf.length)` of a byte list with `buf`
(host-side `copy_nonoverlapping` into the mapped slice). -/
def listWrite (data : List Nat) (i : Nat) (buf : List Nat) : List Nat :=
  data.take i ++ buf ++ data.drop (i + buf.length)

/-- `MemoryRef::read`: map `[offset, offset+len)` for `AccessType::Load` and
copy `len` bytes out; the source's `.unwrap()` on a failed map is `none`. -/
def MemoryRef.read (r : Region) (offset len : Nat) : Option (List Nat) :=
  if r.mapOk offset len then some (listRead r.data (offset - r.base) len) else none

/-- `MemoryRef::write`: map `[offset, offset+buf.length)` for
`AccessType::Store` and copy `buf` in; the source's `.unwrap()` on a failed
map is `none`.  `map` is called before any byte is stored, so a failed write
mutates nothing. -/
def MemoryRef.write (r : Region) (offset : Nat) (buf : List Nat) : Option Region :=
  if r.mapOk offset buf.length then
    some ⟨r.base, listWrite r.data (offset - r.base) buf⟩
  else none

/-- Result of one syscall invocation, together with the region it leaves
behind.  `ok v` is `StableResult::Ok(v)` written to the result slot;
`userAbort` is `StableResult::Err(EbpfError::UserError(AbortError))`;
`boundsFault` is the `.unwrap()` panic inside `MemoryRef` on an out-of-range
access, which aborts the run. -/
inductive SyscallOutcome where
  | ok (result : Nat) (mem : Region)
  | userAbort (mem : Region)
  | boundsFault (mem : Region)
  deriving DecidableEq

/-- `sol_memcpy_syscall(dest, src, n)`: read `n` bytes at `src` into a fresh
buffer (`vec![0u8; n]`), write the buffer at `dest`, report `Ok(0)`. -/
def sol_memcpy_syscall (dest src n : Nat) (mem : Region) : SyscallOutcome :=
  match MemoryRef.read mem src n with
  | none => .boundsFault mem
  | some buf =>
    match MemoryRef.write mem dest buf with
    | none => .boundsFault mem
    | some mem2 => .ok 0 mem2

/-- `sol_memmove_syscall(dest, src, n)`: read `n` bytes at `src` into a fresh
buffer, write the buffer at `dest`, report `Ok(0)` — the source body is
line-for-line that of `sol_memcpy_syscall`. -/
def sol_memmove_syscall (dest src n : Nat) (mem : Region) : SyscallOutcome :=
  match MemoryRef.read mem src n with
  | none => .boundsFault mem
  | some buf =>
    match MemoryRef.write mem dest buf with
    | none => .boundsFault mem
    | some mem2 => .ok 0 mem2

/-- `sol_memset_syscall(s, c, n)`: build `vec![c as u8; n]`, write it at `s`,
report `Ok(0)`. -/
def sol_memset_syscall (s c n : Nat) (mem : Region) : SyscallOutcome :=
  match MemoryRef.write mem s (List.replicate n (c % 256)) with
  | none => .boundsFault mem
  | some mem2 => .ok 0 mem2

/-- Rust's `Ord` on byte vectors (`buf1.cmp(&buf2)`): unsigned lexicographic,
the first differing byte decides; a proper prefix sorts first. -/
def bytesCmp : List Nat → List Nat → Ordering
  | [], [] => .eq
  | [], _ :: _ => .lt
  | _ :: _, [] => .gt
  | a :: as, b :: bs => if a < b then .lt else if b < a then .gt else bytesCmp as bs

/-- `i32::to_le_bytes` of a small signed value, as four bytes (two's
complement, little-endian). -/
def i32ToLeBytes (x : Int) : List Nat :=
  let u : Nat := (x % (2 ^ 32 : Int)).toNat
  [u % 256, u / 2 ^ 8 % 256, u / 2 ^ 16 % 256, u / 2 ^ 24 % 256]

/-- The `i32` the comparison writes: `-1` for `Less`, `0` for `Equal`,
`1` for `Greater`. -/
def orderingToInt : Ordering → Int
  | .lt => -1
  | .eq => 0
  | .gt => 1

/-- `sol_memcmp_syscall(s1, s2, n, result_ptr)`: read `n` bytes at each of
`s1` and `s2`, compare the buffers with `Ord::cmp`, write the `i32` outcome
little-endian at `result_ptr`, report `Ok(0)`. -/
def sol_memcmp_syscall (s1 s2 n result_ptr : Nat) (mem : Region) : SyscallOutcome :=
  match MemoryRef.read mem s1 n with
  | none => .boundsFault mem
  | some buf1 =>
    match MemoryRef.read mem s2 n with
    | none => .boundsFault mem
    | some buf2 =>
      match MemoryRef.write mem result_ptr (i32ToLeBytes (orderingToInt (bytesCmp buf1 buf2))) with
      | none => .boundsFault mem
      | some mem2 => .ok 0 mem2

/-- `abort_syscall`: ignore the five arguments, set the result slot to
`Err(EbpfError::UserError(AbortError))`, touch no memory. -/
def abort_syscall (a1 a2 a3 a4 a5 : Nat) (mem : Region) : SyscallOutcome :=
  SyscallOutcome.userAbort mem

/-- `ext_syscall`: forward the five raw arguments and a `MemoryRef` over the
current mapping to `SupervisorContext::supervisor_call`, discard the `u64`
it returns, set the result slot to `Ok(0)`.  The supervisor is a state type
`S` with a call that yields its `u64` result, the region as it left it, and
its successor state. -/
def ext_syscall {S : Type} (sup : S → Nat → Nat → Nat → Nat → Nat → Region → Nat × Region × S)
    (st : S) (a1 a2 a3 a4 a5 : Nat) (mem : Region) : SyscallOutcome × S :=
  let r := sup st a1 a2 a3 a4 a5 mem
  (SyscallOutcome.ok 0 r.2.1, r.2.2)

/-- Modelled from the spec: the run outcomes of spec section 3 — the engine
itself (loading, interpreting, metering) is out of scope and absent from the
sources.  `completed` carries the program's `u64` return value. -/
inductive ExecOutcome where
  | completed (ret : Nat)
  | userAbort
  | budgetExhausted
  | engineFault
  deriving DecidableEq

/-- Modelled from the spec: how a syscall's result surfaces at run level —
`Ok` lets the run continue (no terminal outcome), the user error raised by
`abort` terminates the run as the distinguished guest-abort outcome, and an
accessor bounds fault terminates it as an engine-reported fault. -/
def runOutcomeOfSyscall : SyscallOutcome → Option ExecOutcome
  | .ok _ _ => none
  | .userAbort _ => some .userAbort
  | .boundsFault _ => some .engineFault

/-- `execute(program, input, context)`: register the six services, load the
ELF (`from_elf(...).unwrap()`), verify it (`from_executable(...).unwrap()`),
map the input writable at `MM_INPUT_START`, run under the fixed budget, and
end with `let _res = vm.execute_program_interpreted(...).unwrap();`.  The
external engine's load, verification and run results are parameters; `none`
models a panic of one of the four `.unwrap()` calls reaching the caller, and
`some ()` is `execute` returning normally (it has no return value). -/
def execute (loadResult verifyResult : Option Unit) (runResult : ExecOutcome) : Option Unit :=
  match loadResult with
  | none => none
  | some _ =>
    match verifyResult with
    | none => none
    | some _ =>
      match runResult with
      | .completed _ => some ()
      | .userAbort => none
      | .budgetExhausted => none
      | .engineFault => none

/-! ### Helper lemmas about the byte-list primitives -/

lemma listWrite_length (data buf : List Nat) (i : Nat) (h : i + buf.length ≤ data.length) :
    (listWrite data i buf).length = data.length := by
  simp only [listWrite, List.length_append, List.length_take, List.length_drop]
  omega

lemma listRead_length (data : List Nat) (i len : Nat) (h : i + len ≤ data.length) :
    (listRead data i len).length = len := by
  simp only [listRead, List.length_take, List.length_drop]
  omega

lemma listRead_listWrite (data buf : List Nat) (i : Nat) (h : i + buf.length ≤ data.length) :
    listRead (listWrite data i buf) i buf.length = buf := by
  have htake : (data.take i).length = i := by
    simp only [List.length_take]
    omega
  unfold listRead listWrite
  rw [List.append_assoc, List.drop_left' htake, List.take_left]

lemma listRead_listWrite' (data buf : List Nat) (i n : Nat) (hlen : buf.length = n)
    (h : i + n ≤ data.length) :
    listRead (listWrite data i buf) i n = buf := by
  subst hlen
  exact listRead_listWrite data buf i h

lemma listWrite_getElem_lt (data buf : List Nat) (i k : Nat) (hk : k < i)
    (hi : i ≤ data.length) :
    (listWrite data i buf)[k]? = data[k]? := by
  have htake : (data.take i).length = i := by
    simp only [List.length_take]
    omega
  unfold listWrite
  rw [List.append_assoc, List.getElem?_append_left (by rw [htake]; exact hk),
    List.getElem?_take_of_lt hk]

lemma listWrite_getElem_ge (data buf : List Nat) (i k : Nat)
    (hk : i + buf.length ≤ k) (hi : i ≤ data.length) :
    (listWrite data i buf)[k]? = data[k]? := by
  have hlen : (data.take i ++ buf).length = i + buf.length := by
    simp only [List.length_append, List.length_take]
    omega
  unfold listWrite
  rw [List.getElem?_append_right (by rw [hlen]; exact hk), hlen, List.getElem?_drop]
  congr 1
  omega

lemma mapOk_iff (r : Region) (offset len : Nat) :
    r.mapOk offset len = true ↔
      (len = 0 ∨ (r.base ≤ offset ∧ offset + len ≤ r.base + r.data.length)) := by
  simp [Region.mapOk]

lemma read_of_inBounds (r : Region) (offset len : Nat)
    (h1 : r.base ≤ offset) (h2 : offset + len ≤ r.base + r.data.length) :
    MemoryRef.read r offset len = some (listRead r.data (offset - r.base) len) := by
  unfold MemoryRef.read
  rw [if_pos ((mapOk_iff r offset len).mpr (Or.inr ⟨h1, h2⟩))]

lemma write_of_inBounds (r : Region) (offset : Nat) (buf : List Nat)
    (h1 : r.base ≤ offset) (h2 : offset + buf.length ≤ r.base + r.data.length) :
    MemoryRef.write r offset buf =
      some ⟨r.base, listWrite r.data (offset - r.base) buf⟩ := by
  unfold MemoryRef.write
  rw [if_pos ((mapOk_iff r offset buf.length).mpr (Or.inr ⟨h1, h2⟩))]

/-! ### Claim theorems -/

/-- C1: for every `dest`, `src`, `n` with `[src, src+n)` and `[dest, dest+n)`
fully inside the mapped input region, `sol_memcpy_syscall` reports success
(result 0) and makes the bytes at `[dest, dest+n)` equal to the bytes that
were at `[src, src+n)` before the call. -/
theorem memcpy_correct (mem : Region) (dest src n : Nat)
    (hsrc : mem.base ≤ src ∧ src + n ≤ mem.base + mem.data.length)
    (hdest : mem.base ≤ dest ∧ dest + n ≤ mem.base + mem.data.length) :
    ∃ mem' : Region,
      sol_memcpy_syscall dest src n mem = SyscallOutcome.ok 0 mem' ∧
      MemoryRef.read mem' dest n = MemoryRef.read mem src n := by
  obtain ⟨hs1, hs2⟩ := hsrc
  obtain ⟨hd1, hd2⟩ := hdest
  have hbuflen : (listRead mem.data (src - mem.base) n).length = n :=
    listRead_length _ _ _ (by omega)
  have hread := read_of_inBounds mem src n hs1 hs2
  have hwrite := write_of_inBounds mem dest (listRead mem.data (src - mem.base) n)
    hd1 (by rw [hbuflen]; omega)
  have hwlen : (listWrite mem.data (dest - mem.base) (listRead mem.data (src - mem.base) n)).length
      = mem.data.length :=
    listWrite_length _ _ _ (by rw [hbuflen]; omega)
  refine ⟨⟨mem.base, listWrite mem.data (dest - mem.base) (listRead mem.data (src - mem.base) n)⟩,
    ?_, ?_⟩
  · simp only [sol_memcpy_syscall, hread, hwrite]
  · rw [hread]
    rw [read_of_inBounds
      ⟨mem.base, listWrite mem.data (dest - mem.base) (listRead mem.data (src - mem.base) n)⟩
      dest n hd1
      (by show dest + n ≤ mem.base +
            (listWrite mem.data (dest - mem.base) (listRead mem.data (src - mem.base) n)).length
          rw [hwlen]
          omega)]
    show some (listRead
      (listWrite mem.data (dest - mem.base) (listRead mem.data (src - mem.base) n))
      (dest - mem.base) n) = _
    rw [listRead_listWrite' mem.data (listRead mem.data (src - mem.base) n) (dest - mem.base) n
      hbuflen (by omega)]

/-- Witness for C1 at a concrete region and concrete in-bounds arguments. -/
theorem memcpy_correct_witness :
    ∃ mem' : Region,
      sol_memcpy_syscall 400 402 2 ⟨400, [1, 2, 3, 4]⟩ = SyscallOutcome.ok 0 mem' ∧
      MemoryRef.read mem' 400 2 = MemoryRef.read ⟨400, [1, 2, 3, 4]⟩ 402 2 :=
  memcpy_correct ⟨400, [1, 2, 3, 4]⟩ 400 402 2 (by decide) (by decide)

/-- Spec-side reference for the refinement claim about `move`, following the
spec's words only: first duplicate the source bytes `[src, src+n)` into a
temporary buffer, then write that buffer to the destination `dest`, reporting
success unless the accessor faults. -/
def stagedCopySpec (dest src n : Nat) (mem : Region) : SyscallOutcome :=
  match MemoryRef.read mem src n with
  | none => .boundsFault mem
  | some tmp =>
    match MemoryRef.write mem dest tmp with
    | none => .boundsFault mem
    | some mem2 => .ok 0 mem2

/-- C2: `sol_memmove_syscall` is functionally identical to
`sol_memcpy_syscall` for every `dest`, `src`, `n` — overlapping ranges
included, since the arguments are unconstrained — and both equal the staged
reference: duplicate the source into a temporary buffer, then write it to the
destination. -/
theorem memmove_eq_memcpy (dest src n : Nat) (mem : Region) :
    sol_memmove_syscall dest src n mem = sol_memcpy_syscall dest src n mem ∧
    sol_memmove_syscall dest src n mem = stagedCopySpec dest src n mem :=
  ⟨rfl, rfl⟩

/-- C3: for every `ptr`, `v`, `n` with `[ptr, ptr+n)` inside the mapped
region, `sol_memset_syscall` reports success (result 0) and a subsequent read
of `[ptr, ptr+n)` yields `n` bytes all equal to `v mod 256`. -/
theorem memset_correct (mem : Region) (ptr v n : Nat)
    (h : mem.base ≤ ptr ∧ ptr + n ≤ mem.base + mem.data.length) :
    ∃ mem' : Region,
      sol_memset_syscall ptr v n mem = SyscallOutcome.ok 0 mem' ∧
      MemoryRef.read mem' ptr n = some (List.replicate n (v % 256)) := by
  obtain ⟨h1, h2⟩ := h
  have hrep : (List.replicate n (v % 256)).length = n := List.length_replicate n _
  have hwrite := write_of_inBounds mem ptr (List.replicate n (v % 256)) h1
    (by rw [hrep]; omega)
  have hwlen := listWrite_length mem.data (List.replicate n (v % 256)) (ptr - mem.base)
    (by rw [hrep]; omega)
  refine ⟨⟨mem.base, listWrite mem.data (ptr - mem.base) (List.replicate n (v % 256))⟩, ?_, ?_⟩
  · simp only [sol_memset_syscall, hwrite]
  · rw [read_of_inBounds
      ⟨mem.base, listWrite mem.data (ptr - mem.base) (List.replicate n (v % 256))⟩ ptr n h1
      (by show ptr + n ≤ mem.base +
            (listWrite mem.data (ptr - mem.base) (List.replicate n (v % 256))).length
          rw [hwlen]
          omega)]
    show some (listRead (listWrite mem.data (ptr - mem.base) (List.replicate n (v % 256)))
      (ptr - mem.base) n) = _
    rw [listRead_listWrite' mem.data (List.replicate n (v % 256)) (ptr - mem.base) n hrep
      (by omega)]

/-- Witness for C3 at a concrete region: filling two bytes with
`0x141 mod 256 = 0x41`. -/
theorem memset_correct_witness :
    ∃ mem' : Region,
      sol_memset_syscall 401 321 2 ⟨400, [1, 2, 3, 4]⟩ = SyscallOutcome.ok 0 mem' ∧
      MemoryRef.read mem' 401 2 = some (List.replicate 2 (321 % 256)) :=
  memset_correct ⟨400, [1, 2, 3, 4]⟩ 401 321 2 (by decide)

lemma read_of_ok (r : Region) (offset len : Nat) (h : r.mapOk offset len = true) :
    MemoryRef.read r offset len = some (listRead r.data (offset - r.base) len) := by
  unfold MemoryRef.read
  rw [if_pos h]

lemma write_of_ok (r : Region) (offset : Nat) (buf : List Nat)
    (h : r.mapOk offset buf.length = true) :
    MemoryRef.write r offset buf = some ⟨r.base, listWrite r.data (offset - r.base) buf⟩ := by
  unfold MemoryRef.write
  rw [if_pos h]

lemma read_of_notOk (r : Region) (offset len : Nat) (h : r.mapOk offset len = false) :
    MemoryRef.read r offset len = none := by
  unfold MemoryRef.read
  rw [if_neg (by simp [h])]

lemma write_of_notOk (r : Region) (offset : Nat) (buf : List Nat)
    (h : r.mapOk offset buf.length = false) :
    MemoryRef.write r offset buf = none := by
  unfold MemoryRef.write
  rw [if_neg (by simp [h])]

lemma read_length_of_mapOk (r : Region) (offset len : Nat) (h : r.mapOk offset len = true) :
    (listRead r.data (offset - r.base) len).length = len := by
  rcases (mapOk_iff r offset len).mp h with h0 | ⟨h1, h2⟩
  · subst h0
    simp [listRead]
  · exact listRead_length _ _ _ (by omega)

lemma i32ToLeBytes_length (x : Int) : (i32ToLeBytes x).length = 4 := rfl

lemma bytesCmp_self (a : List Nat) : bytesCmp a a = Ordering.eq := by
  induction a with
  | nil => rfl
  | cons x xs ih => simp [bytesCmp, ih]

lemma bytesCmp_antisymm (a b : List Nat) :
    orderingToInt (bytesCmp a b) = -(orderingToInt (bytesCmp b a)) := by
  induction a generalizing b with
  | nil => cases b <;> rfl
  | cons x xs ih =>
    cases b with
    | nil => rfl
    | cons y ys =>
      by_cases h1 : x < y
      · have h2 : ¬ y < x := by omega
        simp [bytesCmp, h1, h2, orderingToInt]
      · by_cases h2 : y < x
        · simp [bytesCmp, h1, h2, orderingToInt]
        · simp [bytesCmp, h1, h2, ih ys]

/-- C4: for every `s1`, `s2`, `n`, `result_ptr` with all three ranges in
bounds, `sol_memcmp_syscall` reports success (result 0), writes at
`result_ptr` the 32-bit little-endian signed encoding of the unsigned
lexicographic comparison of the `n` bytes at `s1` against the `n` bytes at
`s2` (`-1` below, `0` equal, `1` above); the comparison satisfies
`compare(a,b) = -compare(b,a)` and `compare(a,a) = 0`. -/
theorem memcmp_correct (mem : Region) (s1 s2 n result_ptr : Nat)
    (h1 : mem.base ≤ s1 ∧ s1 + n ≤ mem.base + mem.data.length)
    (h2 : mem.base ≤ s2 ∧ s2 + n ≤ mem.base + mem.data.length)
    (hr : mem.base ≤ result_ptr ∧ result_ptr + 4 ≤ mem.base + mem.data.length) :
    (∃ mem' : Region,
      sol_memcmp_syscall s1 s2 n result_ptr mem = SyscallOutcome.ok 0 mem' ∧
      MemoryRef.read mem' result_ptr 4 =
        some (i32ToLeBytes (orderingToInt
          (bytesCmp (listRead mem.data (s1 - mem.base) n)
            (listRead mem.data (s2 - mem.base) n))))) ∧
    (∀ a b : List Nat, orderingToInt (bytesCmp a b) = -(orderingToInt (bytesCmp b a))) ∧
    (∀ a : List Nat, bytesCmp a a = Ordering.eq) := by
  obtain ⟨h11, h12⟩ := h1
  obtain ⟨h21, h22⟩ := h2
  obtain ⟨hr1, hr2⟩ := hr
  refine ⟨?_, bytesCmp_antisymm, bytesCmp_self⟩
  have hread1 := read_of_inBounds mem s1 n h11 h12
  have hread2 := read_of_inBounds mem s2 n h21 h22
  have hout : (i32ToLeBytes (orderingToInt
      (bytesCmp (listRead mem.data (s1 - mem.base) n)
        (listRead mem.data (s2 - mem.base) n)))).length = 4 :=
    i32ToLeBytes_length _
  have hwrite := write_of_inBounds mem result_ptr
    (i32ToLeBytes (orderingToInt (bytesCmp (listRead mem.data (s1 - mem.base) n)
      (listRead mem.data (s2 - mem.base) n)))) hr1 (by rw [hout]; omega)
  have hwlen := listWrite_length mem.data
    (i32ToLeBytes (orderingToInt (bytesCmp (listRead mem.data (s1 - mem.base) n)
      (listRead mem.data (s2 - mem.base) n)))) (result_ptr - mem.base)
    (by rw [hout]; omega)
  refine ⟨⟨mem.base, listWrite mem.data (result_ptr - mem.base)
    (i32ToLeBytes (orderingToInt (bytesCmp (listRead mem.data (s1 - mem.base) n)
      (listRead mem.data (s2 - mem.base) n))))⟩, ?_, ?_⟩
  · simp only [sol_memcmp_syscall, hread1, hread2, hwrite]
  · rw [read_of_inBounds
      ⟨mem.base, listWrite mem.data (result_ptr - mem.base)
        (i32ToLeBytes (orderingToInt (bytesCmp (listRead mem.data (s1 - mem.base) n)
          (listRead mem.data (s2 - mem.base) n))))⟩ result_ptr 4 hr1
      (by show result_ptr + 4 ≤ mem.base + (listWrite mem.data (result_ptr - mem.base)
            (i32ToLeBytes (orderingToInt (bytesCmp (listRead mem.data (s1 - mem.base) n)
              (listRead mem.data (s2 - mem.base) n))))).length
          rw [hwlen]
          omega)]
    show some (listRead (listWrite mem.data (result_ptr - mem.base)
      (i32ToLeBytes (orderingToInt (bytesCmp (listRead mem.data (s1 - mem.base) n)
        (listRead mem.data (s2 - mem.base) n))))) (result_ptr - mem.base) 4) = _
    rw [listRead_listWrite' mem.data _ (result_ptr - mem.base) 4 hout (by omega)]

/-- Witness for C4: comparing `[5,6]` against `[7,8]` writes `-1` as four
little-endian bytes. -/
theorem memcmp_correct_witness :
    (∃ mem' : Region,
      sol_memcmp_syscall 400 402 2 404 ⟨400, [5, 6, 7, 8, 0, 0, 0, 0]⟩ =
        SyscallOutcome.ok 0 mem' ∧
      MemoryRef.read mem' 404 4 =
        some (i32ToLeBytes (orderingToInt
          (bytesCmp (listRead [5, 6, 7, 8, 0, 0, 0, 0] (400 - 400) 2)
            (listRead [5, 6, 7, 8, 0, 0, 0, 0] (402 - 400) 2))))) ∧
    (∀ a b : List Nat, orderingToInt (bytesCmp a b) = -(orderingToInt (bytesCmp b a))) ∧
    (∀ a : List Nat, bytesCmp a a = Ordering.eq) :=
  memcmp_correct ⟨400, [5, 6, 7, 8, 0, 0, 0, 0]⟩ 400 402 2 404
    (by decide) (by decide) (by decide)

/-- C5: whenever a requested range of a built-in memory service is not fully
covered by the mapped region (`mapOk` is `false` for a source, destination or
result-pointer range), the whole invocation ends in the accessor's bounds
fault, and the region handed to the fault is the original one — no partial
mutation, no truncation or clamping.  For `sol_memcpy_syscall` and
`sol_memmove_syscall` the arguments are `(dest, src, n) = (a, b, n)`; for
`sol_memset_syscall` they are `(ptr, v, n) = (a, v, n)`; for
`sol_memcmp_syscall` they are `(s1, s2, n, result_ptr) = (a, b, n,
result_ptr)`. -/
theorem memservices_bounds_fault (mem : Region) (a b v n result_ptr : Nat) :
    ((mem.mapOk b n = false ∨ mem.mapOk a n = false) →
      sol_memcpy_syscall a b n mem = SyscallOutcome.boundsFault mem ∧
      sol_memmove_syscall a b n mem = SyscallOutcome.boundsFault mem) ∧
    (mem.mapOk a n = false →
      sol_memset_syscall a v n mem = SyscallOutcome.boundsFault mem) ∧
    ((mem.mapOk a n = false ∨ mem.mapOk b n = false ∨ mem.mapOk result_ptr 4 = false) →
      sol_memcmp_syscall a b n result_ptr mem = SyscallOutcome.boundsFault mem) := by
  refine ⟨?_, ?_, ?_⟩
  · rintro (hb | ha)
    · constructor <;>
        simp only [sol_memcpy_syscall, sol_memmove_syscall, read_of_notOk mem b n hb]
    · cases hsb : mem.mapOk b n with
      | false =>
        constructor <;>
          simp only [sol_memcpy_syscall, sol_memmove_syscall, read_of_notOk mem b n hsb]
      | true =>
        have hlen := read_length_of_mapOk mem b n hsb
        have hw := write_of_notOk mem a (listRead mem.data (b - mem.base) n)
          (by rw [hlen]; exact ha)
        constructor <;>
          simp only [sol_memcpy_syscall, sol_memmove_syscall, read_of_ok mem b n hsb, hw]
  · intro ha
    have hw := write_of_notOk mem a (List.replicate n (v % 256))
      (by rw [List.length_replicate]; exact ha)
    simp only [sol_memset_syscall, hw]
  · rintro (ha | hb | hrp)
    · simp only [sol_memcmp_syscall, read_of_notOk mem a n ha]
    · cases hsa : mem.mapOk a n with
      | false => simp only [sol_memcmp_syscall, read_of_notOk mem a n hsa]
      | true =>
        simp only [sol_memcmp_syscall, read_of_ok mem a n hsa, read_of_notOk mem b n hb]
    · cases hsa : mem.mapOk a n with
      | false => simp only [sol_memcmp_syscall, read_of_notOk mem a n hsa]
      | true =>
        cases hsb : mem.mapOk b n with
        | false =>
          simp only [sol_memcmp_syscall, read_of_ok mem a n hsa, read_of_notOk mem b n hsb]
        | true =>
          have hw := write_of_notOk mem result_ptr
            (i32ToLeBytes (orderingToInt (bytesCmp (listRead mem.data (a - mem.base) n)
              (listRead mem.data (b - mem.base) n))))
            (by rw [i32ToLeBytes_length]; exact hrp)
          simp only [sol_memcmp_syscall, read_of_ok mem a n hsa, read_of_ok mem b n hsb, hw]

/-- Witness for C5: each service faulting on a concrete out-of-range request
against a four-byte region at base 400, leaving the region intact. -/
theorem memservices_bounds_fault_witness :
    sol_memcpy_syscall 500 400 4 ⟨400, [1, 2, 3, 4]⟩ =
      SyscallOutcome.boundsFault ⟨400, [1, 2, 3, 4]⟩ ∧
    sol_memmove_syscall 500 400 4 ⟨400, [1, 2, 3, 4]⟩ =
      SyscallOutcome.boundsFault ⟨400, [1, 2, 3, 4]⟩ ∧
    sol_memset_syscall 500 7 4 ⟨400, [1, 2, 3, 4]⟩ =
      SyscallOutcome.boundsFault ⟨400, [1, 2, 3, 4]⟩ ∧
    sol_memcmp_syscall 500 400 4 0 ⟨400, [1, 2, 3, 4]⟩ =
      SyscallOutcome.boundsFault ⟨400, [1, 2, 3, 4]⟩ :=
  ⟨((memservices_bounds_fault ⟨400, [1, 2, 3, 4]⟩ 500 400 7 4 0).1 (Or.inr (by decide))).1,
   ((memservices_bounds_fault ⟨400, [1, 2, 3, 4]⟩ 500 400 7 4 0).1 (Or.inr (by decide))).2,
   (memservices_bounds_fault ⟨400, [1, 2, 3, 4]⟩ 500 400 7 4 0).2.1 (by decide),
   (memservices_bounds_fault ⟨400, [1, 2, 3, 4]⟩ 500 400 7 4 0).2.2 (Or.inl (by decide))⟩

lemma mapOk_zero (r : Region) (offset : Nat) : r.mapOk offset 0 = true := by
  simp [Region.mapOk]

lemma listRead_zero (data : List Nat) (i : Nat) : listRead data i 0 = [] := by
  simp [listRead]

lemma listWrite_nil (data : List Nat) (i : Nat) : listWrite data i [] = data := by
  simp [listWrite]

/-- C6 counterexample: with `n = 0` the compare service still writes the four
result bytes, so a `result_ptr` outside the region faults instead of
completing — zero length does not make compare a complete no-op for all
address arguments. -/
theorem memcmp_zero_len_faults :
    sol_memcmp_syscall 400 400 0 0 ⟨400, [1, 2, 3, 4]⟩ =
      SyscallOutcome.boundsFault ⟨400, [1, 2, 3, 4]⟩ := by
  decide

/-- C6 amended: with `n = 0`, copy, move and fill complete successfully and
leave the region untouched whatever their address arguments are; compare with
`n = 0` performs its (empty) reads for any `s1`, `s2` but still writes the
4-byte result, so it succeeds exactly when the range `[result_ptr,
result_ptr+4)` is covered, and faults without mutating memory otherwise. -/
theorem memservices_zero_len (mem : Region) (a b v rp : Nat) :
    sol_memcpy_syscall a b 0 mem = SyscallOutcome.ok 0 mem ∧
    sol_memmove_syscall a b 0 mem = SyscallOutcome.ok 0 mem ∧
    sol_memset_syscall a v 0 mem = SyscallOutcome.ok 0 mem ∧
    (mem.mapOk rp 4 = true →
      ∃ mem' : Region, sol_memcmp_syscall a b 0 rp mem = SyscallOutcome.ok 0 mem') ∧
    (mem.mapOk rp 4 = false →
      sol_memcmp_syscall a b 0 rp mem = SyscallOutcome.boundsFault mem) := by
  have hr0 : ∀ off : Nat, MemoryRef.read mem off 0 = some [] := fun off => by
    rw [read_of_ok mem off 0 (mapOk_zero mem off), listRead_zero]
  have hw0 : ∀ off : Nat, MemoryRef.write mem off [] = some mem := fun off => by
    rw [write_of_ok mem off [] (mapOk_zero mem off), listWrite_nil]
  refine ⟨?_, ?_, ?_, ?_, ?_⟩
  · simp only [sol_memcpy_syscall, hr0, hw0]
  · simp only [sol_memmove_syscall, hr0, hw0]
  · simp only [sol_memset_syscall, List.replicate_zero, hw0]
  · intro h
    have hw := write_of_ok mem rp (i32ToLeBytes (orderingToInt (bytesCmp [] [])))
      (by rw [i32ToLeBytes_length]; exact h)
    exact ⟨⟨mem.base, listWrite mem.data (rp - mem.base)
        (i32ToLeBytes (orderingToInt (bytesCmp [] [])))⟩,
      by simp only [sol_memcmp_syscall, hr0, hw]⟩
  · intro h
    have hw := write_of_notOk mem rp (i32ToLeBytes (orderingToInt (bytesCmp [] [])))
      (by rw [i32ToLeBytes_length]; exact h)
    simp only [sol_memcmp_syscall, hr0, hw]

/-- Witness for the amended C6: concrete zero-length invocations with wild
addresses succeed as no-ops, and compare's success is decided solely by its
result pointer. -/
theorem memservices_zero_len_witness :
    sol_memcpy_syscall 0 99999 0 ⟨400, [1, 2, 3, 4]⟩ =
      SyscallOutcome.ok 0 ⟨400, [1, 2, 3, 4]⟩ ∧
    sol_memmove_syscall 0 99999 0 ⟨400, [1, 2, 3, 4]⟩ =
      SyscallOutcome.ok 0 ⟨400, [1, 2, 3, 4]⟩ ∧
    sol_memset_syscall 0 7 0 ⟨400, [1, 2, 3, 4]⟩ =
      SyscallOutcome.ok 0 ⟨400, [1, 2, 3, 4]⟩ ∧
    (∃ mem' : Region, sol_memcmp_syscall 0 99999 0 400 ⟨400, [1, 2, 3, 4]⟩ =
      SyscallOutcome.ok 0 mem') ∧
    sol_memcmp_syscall 0 99999 0 9999 ⟨400, [1, 2, 3, 4]⟩ =
      SyscallOutcome.boundsFault ⟨400, [1, 2, 3, 4]⟩ :=
  ⟨(memservices_zero_len ⟨400, [1, 2, 3, 4]⟩ 0 99999 7 400).1,
   (memservices_zero_len ⟨400, [1, 2, 3, 4]⟩ 0 99999 7 400).2.1,
   (memservices_zero_len ⟨400, [1, 2, 3, 4]⟩ 0 99999 7 400).2.2.1,
   (memservices_zero_len ⟨400, [1, 2, 3, 4]⟩ 0 99999 7 400).2.2.2.1 (by decide),
   (memservices_zero_len ⟨400, [1, 2, 3, 4]⟩ 0 99999 7 9999).2.2.2.2 (by decide)⟩

/-- C7: `ext_syscall` hands its five raw arguments and the current region to
the supervisor's single callback and reports `Ok(0)` to the engine; the
right-hand side never mentions the `u64` the callback returned (`.1` of the
triple), so that value is discarded and the supervisor cannot fail the run
through this channel. -/
theorem ext_syscall_discards_supervisor_result {S : Type}
    (sup : S → Nat → Nat → Nat → Nat → Nat → Region → Nat × Region × S)
    (st : S) (a1 a2 a3 a4 a5 : Nat) (mem : Region) :
    ext_syscall sup st a1 a2 a3 a4 a5 mem =
      (SyscallOutcome.ok 0 (sup st a1 a2 a3 a4 a5 mem).2.1,
        (sup st a1 a2 a3 a4 a5 mem).2.2) :=
  rfl

/-- C8: `abort_syscall` ignores its five integer arguments and unconditionally
raises the user error, which surfaces as the distinguished guest-abort run
outcome, a different outcome from an engine-detected fault and from budget
exhaustion. -/
theorem abort_syscall_unconditional (a1 a2 a3 a4 a5 b1 b2 b3 b4 b5 : Nat) (mem : Region) :
    abort_syscall a1 a2 a3 a4 a5 mem = SyscallOutcome.userAbort mem ∧
    abort_syscall a1 a2 a3 a4 a5 mem = abort_syscall b1 b2 b3 b4 b5 mem ∧
    runOutcomeOfSyscall (abort_syscall a1 a2 a3 a4 a5 mem) = some ExecOutcome.userAbort ∧
    ExecOutcome.userAbort ≠ ExecOutcome.engineFault ∧
    ExecOutcome.userAbort ≠ ExecOutcome.budgetExhausted :=
  ⟨rfl, rfl, rfl, by decide, by decide⟩

/-- C9 counterexample: a run ending in the guest-abort outcome does not let
`execute` return normally — the source unwraps the engine's result, and the
`.unwrap()` panic aborts `execute` instead of the outcome being discarded. -/
theorem execute_abort_not_discarded :
    execute (some ()) (some ()) ExecOutcome.userAbort ≠ some () := by
  decide

/-- C9 amended: `execute` has no return value and discards only the `u64`
result of a normally completed run; an abnormal outcome (user abort, budget
exhaustion, engine fault) makes the final `.unwrap()` panic, so those
outcomes abort `execute` rather than being silently dropped. -/
theorem execute_outcome (ret : Nat) (o : ExecOutcome) :
    execute (some ()) (some ()) (ExecOutcome.completed ret) = some () ∧
    (o = ExecOutcome.userAbort ∨ o = ExecOutcome.budgetExhausted ∨
        o = ExecOutcome.engineFault →
      execute (some ()) (some ()) o = none) := by
  refine ⟨rfl, ?_⟩
  rintro (rfl | rfl | rfl) <;> rfl

/-- Witness for the amended C9: the completed value 7 is dropped while budget
exhaustion aborts the call. -/
theorem execute_outcome_witness :
    execute (some ()) (some ()) (ExecOutcome.completed 7) = some () ∧
    execute (some ()) (some ()) ExecOutcome.budgetExhausted = none :=
  ⟨(execute_outcome 7 ExecOutcome.budgetExhausted).1,
   (execute_outcome 7 ExecOutcome.budgetExhausted).2 (by decide)⟩

lemma read_some_length (mem : Region) (offset len : Nat) (buf : List Nat)
    (h : MemoryRef.read mem offset len = some buf) : buf.length = len := by
  cases hmo : mem.mapOk offset len with
  | false =>
    rw [read_of_notOk mem offset len hmo] at h
    cases h
  | true =>
    rw [read_of_ok mem offset len hmo] at h
    injection h with h2
    subst h2
    exact read_length_of_mapOk mem offset len hmo

lemma write_frame (mem m2 : Region) (offset : Nat) (buf : List Nat)
    (h : MemoryRef.write mem offset buf = some m2) :
    m2.base = mem.base ∧ m2.data.length = mem.data.length ∧
    ∀ k : Nat, (mem.base + k < offset ∨ offset + buf.length ≤ mem.base + k) →
      m2.data[k]? = mem.data[k]? := by
  cases hmo : mem.mapOk offset buf.length with
  | false =>
    rw [write_of_notOk mem offset buf hmo] at h
    cases h
  | true =>
    rw [write_of_ok mem offset buf hmo] at h
    injection h with h2
    subst h2
    rcases (mapOk_iff mem offset buf.length).mp hmo with h0 | ⟨hb1, hb2⟩
    · have hnil : buf = [] := List.length_eq_zero.mp h0
      subst hnil
      refine ⟨rfl, ?_, ?_⟩
      · show (listWrite mem.data (offset - mem.base) []).length = mem.data.length
        rw [listWrite_nil]
      · intro k _
        show (listWrite mem.data (offset - mem.base) [])[k]? = mem.data[k]?
        rw [listWrite_nil]
    · refine ⟨rfl, listWrite_length _ _ _ (by omega), ?_⟩
      intro k hk
      rcases hk with hk | hk
      · exact listWrite_getElem_lt mem.data buf (offset - mem.base) k (by omega) (by omega)
      · exact listWrite_getElem_ge mem.data buf (offset - mem.base) k (by omega) (by omega)

/-- C10: a built-in memory service that reports success mutates only its
designated write range.  With the same argument naming as the bounds-fault
theorem, a successful copy or move writes only `[a, a+n)` (its `dest` range),
a successful fill writes only `[a, a+n)` (its `ptr` range), and a successful
compare writes only the four bytes `[result_ptr, result_ptr+4)` — in
particular compare leaves the two compared ranges untouched.  Unchanged bytes
are stated per index `k` of the region's data, at guest address
`mem.base + k`. -/
theorem memservices_frame (mem : Region) (a b v n result_ptr : Nat) :
    (∀ mem' : Region, sol_memcpy_syscall a b n mem = SyscallOutcome.ok 0 mem' →
      mem'.base = mem.base ∧ mem'.data.length = mem.data.length ∧
      ∀ k : Nat, (mem.base + k < a ∨ a + n ≤ mem.base + k) →
        mem'.data[k]? = mem.data[k]?) ∧
    (∀ mem' : Region, sol_memmove_syscall a b n mem = SyscallOutcome.ok 0 mem' →
      mem'.base = mem.base ∧ mem'.data.length = mem.data.length ∧
      ∀ k : Nat, (mem.base + k < a ∨ a + n ≤ mem.base + k) →
        mem'.data[k]? = mem.data[k]?) ∧
    (∀ mem' : Region, sol_memset_syscall a v n mem = SyscallOutcome.ok 0 mem' →
      mem'.base = mem.base ∧ mem'.data.length = mem.data.length ∧
      ∀ k : Nat, (mem.base + k < a ∨ a + n ≤ mem.base + k) →
        mem'.data[k]? = mem.data[k]?) ∧
    (∀ mem' : Region, sol_memcmp_syscall a b n result_ptr mem = SyscallOutcome.ok 0 mem' →
      mem'.base = mem.base ∧ mem'.data.length = mem.data.length ∧
      ∀ k : Nat, (mem.base + k < result_ptr ∨ result_ptr + 4 ≤ mem.base + k) →
        mem'.data[k]? = mem.data[k]?) := by
  refine ⟨?_, ?_, ?_, ?_⟩
  · intro mem' h
    cases hrd : MemoryRef.read mem b n with
    | none =>
      simp only [sol_memcpy_syscall, hrd] at h
      exact SyscallOutcome.noConfusion h
    | some buf =>
      cases hwr : MemoryRef.write mem a buf with
      | none =>
        simp only [sol_memcpy_syscall, hrd, hwr] at h
        exact SyscallOutcome.noConfusion h
      | some m2 =>
        simp only [sol_memcpy_syscall, hrd, hwr] at h
        injection h with h1 h2
        subst h2
        have hbl : buf.length = n := read_some_length mem b n buf hrd
        have hfr := write_frame mem m2 a buf hwr
        exact ⟨hfr.1, hfr.2.1, fun k hk => hfr.2.2 k (by rw [hbl]; exact hk)⟩
  · intro mem' h
    cases hrd : MemoryRef.read mem b n with
    | none =>
      simp only [sol_memmove_syscall, hrd] at h
      exact SyscallOutcome.noConfusion h
    | some buf =>
      cases hwr : MemoryRef.write mem a buf with
      | none =>
        simp only [sol_memmove_syscall, hrd, hwr] at h
        exact SyscallOutcome.noConfusion h
      | some m2 =>
        simp only [sol_memmove_syscall, hrd, hwr] at h
        injection h with h1 h2
        subst h2
        have hbl : buf.length = n := read_some_length mem b n buf hrd
        have hfr := write_frame mem m2 a buf hwr
        exact ⟨hfr.1, hfr.2.1, fun k hk => hfr.2.2 k (by rw [hbl]; exact hk)⟩
  · intro mem' h
    cases hwr : MemoryRef.write mem a (List.replicate n (v % 256)) with
    | none =>
      simp only [sol_memset_syscall, hwr] at h
      exact SyscallOutcome.noConfusion h
    | some m2 =>
      simp only [sol_memset_syscall, hwr] at h
      injection h with h1 h2
      subst h2
      have hfr := write_frame mem m2 a (List.replicate n (v % 256)) hwr
      exact ⟨hfr.1, hfr.2.1, fun k hk =>
        hfr.2.2 k (by rw [List.length_replicate]; exact hk)⟩
  · intro mem' h
    cases hrd1 : MemoryRef.read mem a n with
    | none =>
      simp only [sol_memcmp_syscall, hrd1] at h
      exact SyscallOutcome.noConfusion h
    | some buf1 =>
      cases hrd2 : MemoryRef.read mem b n with
      | none =>
        simp only [sol_memcmp_syscall, hrd1, hrd2] at h
        exact SyscallOutcome.noConfusion h
      | some buf2 =>
        cases hwr : MemoryRef.write mem result_ptr
            (i32ToLeBytes (orderingToInt (bytesCmp buf1 buf2))) with
        | none =>
          simp only [sol_memcmp_syscall, hrd1, hrd2, hwr] at h
          exact SyscallOutcome.noConfusion h
        | some m2 =>
          simp only [sol_memcmp_syscall, hrd1, hrd2, hwr] at h
          injection h with h1 h2
          subst h2
          have hfr := write_frame mem m2 result_ptr
            (i32ToLeBytes (orderingToInt (bytesCmp buf1 buf2))) hwr
          exact ⟨hfr.1, hfr.2.1, fun k hk =>
            hfr.2.2 k (by rw [i32ToLeBytes_length]; exact hk)⟩

/-- Witness for C10: a concrete successful copy over a four-byte region,
checked outside the destination range, applied through the frame theorem. -/
theorem memservices_frame_witness :
    ∀ mem' : Region, sol_memcpy_syscall 400 402 1 ⟨400, [1, 2, 3, 4]⟩ =
        SyscallOutcome.ok 0 mem' →
      mem'.base = 400 ∧ mem'.data.length = 4 ∧
      ∀ k : Nat, (400 + k < 400 ∨ 400 + 1 ≤ 400 + k) → mem'.data[k]? = [1, 2, 3, 4][k]? :=
  (memservices_frame ⟨400, [1, 2, 3, 4]⟩ 400 402 0 1 0).1

end SealEbpf
